import Mathlib

/-!
Verification of the core logic of the placeholder-generator application
(app.py): URL extraction from raw JSON text, filename derivation from
URLs, placeholder filename generation, and image format resolution.
Python strings are modelled as `List Char`; Python sets are modelled as
duplicate-free lists built by ordered insertion, with set membership as
list membership.
-/

namespace PlaceholderGen

/-- The recognized image extensions, in the order in which they appear in
the regular expressions of `extract_image_urls` in app.py. -/
def imageExts : List (List Char) :=
  ["jpg".data, "jpeg".data, "png".data, "gif".data, "bmp".data, "webp".data,
   "svg".data, "tiff".data, "tif".data, "ico".data, "avif".data, "heic".data, "heif".data]

/-- Python `original_filename.rsplit('.', 1)` together with the default
extension `png` used when no dot occurs: returns the pair `(name, ext)`.
`name` is the part before the last dot, or the whole string if there is
no dot. -/
def rsplitDot (s : List Char) : List Char × List Char :=
  if '.' ∈ s then
    (((s.reverse.dropWhile (· ≠ '.')).drop 1).reverse, (s.reverse.takeWhile (· ≠ '.')).reverse)
  else (s, "png".data)

/-- The `name` component computed by `generate_placeholder_filename`:
the part of the filename before the last dot, or the whole string when
there is no dot. -/
def baseName (s : List Char) : List Char := (rsplitDot s).1

/-- Python `prefix.rstrip('_')`: remove the trailing run of underscores. -/
def rstripUnderscores (s : List Char) : List Char :=
  (s.reverse.dropWhile (· = '_')).reverse

/-- Decimal-digit helper with explicit fuel so that evaluation is
structural; with fuel greater than `n` it is the usual base-10
representation. -/
def natDigitsAux : Nat → Nat → List Char
  | 0, _ => []
  | fuel + 1, n =>
    if n < 10 then [Nat.digitChar n]
    else natDigitsAux fuel (n / 10) ++ [Nat.digitChar (n % 10)]

/-- Decimal representation of a natural number, as produced by Python
`str` on a nonnegative int. -/
def natRepr (n : Nat) : List Char := natDigitsAux (n + 1) n

/-- Python `f"{index:03d}"` for a nonnegative index: the decimal digits,
left-padded with zeros to width 3. -/
def pad3 (n : Nat) : List Char :=
  List.replicate (3 - (natRepr n).length) '0' ++ natRepr n

/-- Embedding of `generate_placeholder_filename` from app.py. The Python
truthiness tests `if clean_prefix:` become emptiness tests. -/
def generate_placeholder_filename (original_filename pattern pfx : List Char)
    (index : Nat) : List Char :=
  let name := (rsplitDot original_filename).1
  let clean_prefix := rstripUnderscores pfx
  if pattern = "original_filename".data then
    if clean_prefix ≠ [] then clean_prefix ++ '_' :: original_filename
    else name ++ ".png".data
  else if pattern = "prefix_original_filename".data then
    if clean_prefix ≠ [] then clean_prefix ++ '_' :: original_filename
    else name ++ ".png".data
  else if pattern = "original_filename_suffix".data then
    let sfx := if clean_prefix ≠ [] then clean_prefix else "placeholder".data
    name ++ '_' :: (sfx ++ ".png".data)
  else if pattern = "prefix_index_original_filename".data then
    let index_str := pad3 index
    if clean_prefix ≠ [] then clean_prefix ++ '_' :: (index_str ++ '_' :: original_filename)
    else index_str ++ '_' :: (name ++ ".png".data)
  else "placeholder_".data ++ (name ++ ".png".data)

/-- Python substring containment `p in l` on strings. -/
def containsSub (p : List Char) : List Char → Bool
  | [] => p.isEmpty
  | c :: cs => p.isPrefixOf (c :: cs) || containsSub p cs

/-- The URL-extension fallback of `get_image_format_from_image` in
app.py: substring checks against the lowercased URL, in source order. -/
def formatFromUrl (url : List Char) : List Char :=
  let url_lower := url.map Char.toLower
  if containsSub ".png".data url_lower then "PNG".data
  else if containsSub ".webp".data url_lower then "WEBP".data
  else if containsSub ".gif".data url_lower then "GIF".data
  else "JPEG".data

/-- Embedding of `get_image_format_from_image` from app.py. The probed
format is `img.format` (`none` when PIL reports no format); Python
truthiness makes an empty probed string fall through to the URL check. -/
def get_image_format_from_image (probed : Option (List Char)) (url : List Char) : List Char :=
  match probed with
  | some f => if f ≠ [] then f else formatFromUrl url
  | none => formatFromUrl url

/-! ## URL extraction: embedding of `extract_image_urls`

The two regular expressions of the source,

  escaped: `https?:\\/\\/[^"'<>]+\.(?:jpg|jpeg|...)`   (IGNORECASE)
  direct : `https?://[^"'<>\s]+(?:\.(jpg|jpeg|...))`   (IGNORECASE)

are embedded as dedicated matchers with Python `re` semantics: at a given
position the greedy character class consumes its maximal run and then
backtracks, so the match ends at the rightmost position of the run where
a literal dot followed by an alternative (tried in source order) matches.
`re.findall` scans left to right and collects non-overlapping matches;
for the direct pattern the alternative list sits inside a capturing
group (the `image_extensions` fragment of the source), so `re.findall`
collects the group text, that is, only the extension. -/

/-- Case-insensitive matching of a lowercase pattern against the start
of the text, as done by a literal regex fragment under `re.IGNORECASE`. -/
def ciPrefix : List Char → List Char → Bool
  | [], _ => true
  | _ :: _, [] => false
  | p :: ps, c :: cs => p == c.toLower && ciPrefix ps cs

/-- Try a list of scheme spellings in backtracking order and return the
number of characters consumed by the first that matches. -/
def matchSchemeLen (pats : List (List Char)) (cs : List Char) : Option Nat :=
  pats.findSome? (fun p => if ciPrefix p cs then some p.length else none)

/-- The scheme spellings of the escaped pattern `https?:\\/\\/`, with the
greedy `s?` alternative first. -/
def escSchemePats : List (List Char) := ["https:\\/\\/".data, "http:\\/\\/".data]

/-- The scheme spellings of the direct pattern `https?://`. -/
def dirSchemePats : List (List Char) := ["https://".data, "http://".data]

/-- The regex alternation over the recognized extensions, alternatives
tried in source order; on success returns the text consumed (with its
original case). -/
def extAtCI (cs : List Char) : Option (List Char) :=
  imageExts.findSome? (fun ext => if ciPrefix ext cs then some (cs.take ext.length) else none)

/-- Backtracking search for the end of a match: try dot positions inside
the greedy class run from the rightmost down to position 1 (the class
must consume at least one character) and return the first position `k`
with `body[k] = '.'` followed by a matching extension alternative. -/
def findDotExtAux (body : List Char) : Nat → Option (Nat × List Char)
  | 0 => none
  | k + 1 =>
    if body.get? (k + 1) = some '.' then
      match extAtCI (body.drop (k + 2)) with
      | some e => some (k + 1, e)
      | none => findDotExtAux body k
    else findDotExtAux body k

def findDotExt (body : List Char) : Option (Nat × List Char) :=
  findDotExtAux body (body.length - 1)

/-- The character class `[^"'<>]` of the escaped pattern. -/
def classE (c : Char) : Bool := !(c = '"' || c = '\'' || c = '<' || c = '>')

/-- The character class `[^"'<>\s]` of the direct pattern (`\s` per the
ASCII whitespace characters). -/
def classD (c : Char) : Bool :=
  !(c = '"' || c = '\'' || c = '<' || c = '>' ||
    c = ' ' || c = '\t' || c = '\n' || c = '\x0d' || c = '\x0b' || c = '\x0c')

/-- Matching of the escaped pattern at the start of `cs`: on success
returns the number of consumed characters minus one, together with the
full matched text. -/
def escMatchF (cs : List Char) : Option (Nat × List Char) :=
  match matchSchemeLen escSchemePats cs with
  | none => none
  | some L =>
    let body := (cs.drop L).takeWhile classE
    match findDotExt body with
    | none => none
    | some (k, e) => some (L + k + e.length, cs.take (L + k + 1 + e.length))

/-- Matching of the direct pattern at the start of `cs`: on success
returns the number of consumed characters minus one, together with the
text of the capturing group, that is, only the matched extension. -/
def dirMatchF (cs : List Char) : Option (Nat × List Char) :=
  match matchSchemeLen dirSchemePats cs with
  | none => none
  | some L =>
    let body := (cs.drop L).takeWhile classD
    match findDotExt body with
    | none => none
    | some (k, e) => some (L + k + e.length, e)

/-- Non-overlapping left-to-right scan, as `re.findall`: `skip` counts
positions still covered by the previous match. A matcher result
`(n, v)` means `n + 1` characters were consumed and `v` is collected. -/
def reScanAux (f : List Char → Option (Nat × List Char)) :
    List Char → Nat → List (List Char)
  | [], _ => []
  | _ :: cs, skip + 1 => reScanAux f cs skip
  | c :: cs, 0 =>
    match f (c :: cs) with
    | some (n, v) => v :: reScanAux f cs n
    | none => reScanAux f cs 0

/-- `re.findall` of the escaped pattern: the list of full matches. -/
def escFindall (cs : List Char) : List (List Char) := reScanAux escMatchF cs 0

/-- `re.findall` of the direct pattern: the list of group matches, that
is, of bare extensions. -/
def directFindall (cs : List Char) : List (List Char) := reScanAux dirMatchF cs 0

/-- Python `url.replace('\\/', '/')`: left-to-right non-overlapping
replacement of each two-character backslash-slash pair by a slash. -/
def replEscSlash : List Char → List Char
  | '\\' :: '/' :: cs => '/' :: replEscSlash cs
  | c :: cs => c :: replEscSlash cs
  | [] => []

/-- The trailing characters removed by `re.sub(r'["\',;}\]]+$', '', url)`. -/
def puncChar (c : Char) : Bool :=
  c = '"' || c = '\'' || c = ',' || c = ';' || c = '\x7d' || c = ']'

def rstripPunc (l : List Char) : List Char := (l.reverse.dropWhile puncChar).reverse

/-- Embedding of `re.sub(r'["\',;}\]]+$', '', url)`: without `re.M` the
anchor `$` also matches just before a final newline, so a run before a
terminal newline is removed as well. -/
def stripTrailingPunc (l : List Char) : List Char :=
  if l.getLast? = some '\n' then rstripPunc l.dropLast ++ ['\n'] else rstripPunc l

/-- Scan for the `.+\..+` part of the validation regex
`re.match(r'https?://.+\..+', url)`: looks for a dot that is preceded by
at least one character (tracked by `seen`), with no newline anywhere
before it (`.` does not match a newline without `re.S`), and followed by
one non-newline character. -/
def dotSearch : Bool → List Char → Bool
  | _, [] => false
  | seen, c :: cs =>
    if c = '\n' then false
    else if seen && c == '.' && (match cs with | [] => false | d :: _ => d ≠ '\n') then true
    else dotSearch true cs

/-- Embedding of the validation `re.match(r'https?://.+\..+', url)`
performed on each cleaned candidate (case-sensitive: no IGNORECASE
flag is passed there). -/
def validUrl (x : List Char) : Bool :=
  if "https://".data.isPrefixOf x then dotSearch false (x.drop 8)
  else if "http://".data.isPrefixOf x then dotSearch false (x.drop 7)
  else false

/-- Insertion into the model of a Python set. -/
def insertSet (s : List (List Char)) (x : List Char) : List (List Char) :=
  if x ∈ s then s else s ++ [x]

/-- The per-candidate cleanup-and-validate step of the final loop of
`extract_image_urls`. -/
def cleanStep (acc : List (List Char)) (url : List Char) : List (List Char) :=
  if validUrl (stripTrailingPunc url) then insertSet acc (stripTrailingPunc url) else acc

/-- Embedding of `extract_image_urls` from app.py: escaped-pattern
matches with `\/` undone, then direct-pattern findall results (which are
bare extensions because of the capturing group), then per-candidate
trailing-punctuation cleanup and validation into a set. -/
def extract_image_urls (text : List Char) : List (List Char) :=
  let cleaned_escaped_urls := (escFindall text).map replEscSlash
  let direct_urls := directFindall text
  let all_urls := cleaned_escaped_urls ++ direct_urls
  all_urls.foldl cleanStep []

/-- The cleanup step of `cleanStep` without the trailing-punctuation
removal, for the refinement claim about that step. -/
def cleanStepNoStrip (acc : List (List Char)) (url : List Char) : List (List Char) :=
  if validUrl url then insertSet acc url else acc

/-- Variant of `extract_image_urls` with the trailing-punctuation
cleanup removed. -/
def extract_image_urls_nostrip (text : List Char) : List (List Char) :=
  let cleaned_escaped_urls := (escFindall text).map replEscSlash
  let direct_urls := directFindall text
  let all_urls := cleaned_escaped_urls ++ direct_urls
  all_urls.foldl cleanStepNoStrip []

/-! ## Filename derivation: embedding of `get_filename_from_url`

The source calls `urllib.parse.urlparse(url).path` and takes the final
`'/'`-separated segment. The relevant portion of CPython `urlsplit` and
of the params split of `urlparse` is embedded below for ASCII input; the
mismatched-netloc-bracket `ValueError` is modelled as `Except.error` and
is caught by the source's bare `except`, which returns the hash-based
fallback name. `hash` is a process-wide fixed function, passed here as a
parameter `h`; `hash(url) % 10000` is nonnegative, as is `Int.emod`. -/

/-- CPython `urlsplit` first lstrips WHATWG C0-control-or-space
characters (code points up to 0x20), then removes tab, carriage return
and newline everywhere. -/
def stripUnsafe (url : List Char) : List Char :=
  (url.dropWhile (fun c => c.toNat ≤ 32)).filter
    (fun c => !(c = '\t' || c = '\x0d' || c = '\n'))

/-- The characters allowed after the first in a URL scheme. -/
def schemeChar (c : Char) : Bool := c.isAlpha || c.isDigit || c = '+' || c = '-' || c = '.'

/-- A character that does not end the netloc. -/
def netlocChar (c : Char) : Bool := !(c = '/' || c = '?' || c = '#')

/-- The params split applied by `urlparse` to the `urlsplit` path when it
contains a semicolon: drop everything from the first semicolon at or
after the last slash (Python `_splitparams`). -/
def splitParamsPath (p : List Char) : List Char :=
  if '/' ∈ p then
    let afterLast := (p.reverse.takeWhile (· ≠ '/')).reverse
    let beforeLast := (p.reverse.dropWhile (· ≠ '/')).reverse
    if ';' ∈ afterLast then beforeLast ++ afterLast.takeWhile (· ≠ ';') else p
  else p.takeWhile (· ≠ ';')

/-- The scheme split of CPython `urlsplit`: when a wellformed scheme
(letter, then letters, digits, `+`, `-`, `.`) precedes the first colon,
drop it together with the colon. -/
def schemeSplit (url : List Char) : List Char :=
  let pre := url.takeWhile (· ≠ ':')
  let rest := url.dropWhile (· ≠ ':')
  let schemeOk := match pre with | p :: ps => p.isAlpha && ps.all schemeChar | [] => false
  if rest ≠ [] ∧ schemeOk = true then rest.drop 1 else url

/-- The netloc split of CPython `urlsplit`: when the remainder starts
with `//`, the netloc extends to the first `/`, `?` or `#`; returns the
pair of the netloc and the rest. -/
def netlocSplit (url1 : List Char) : List Char × List Char :=
  if url1.take 2 = ['/', '/'] then
    ((url1.drop 2).takeWhile netlocChar, (url1.drop 2).dropWhile netlocChar)
  else ([], url1)

/-- Embedding of the computation of `urlparse(url).path` by CPython for
ASCII input: strip the leading whitespace plus tab, carriage return and
newline; split a wellformed scheme at the first colon; when `//`
follows, split off the netloc and reject mismatched square brackets
with a `ValueError`; drop the fragment after the first `#`, then the
query after the first `?`; finally apply the params split. -/
def urlparse_path (url0 : List Char) : Except Unit (List Char) :=
  let url1 := schemeSplit (stripUnsafe url0)
  let nl := netlocSplit url1
  if ('[' ∈ nl.1 ∧ ']' ∉ nl.1) ∨ (']' ∈ nl.1 ∧ '[' ∉ nl.1) then .error ()
  else
    let path := (nl.2.takeWhile (· ≠ '#')).takeWhile (· ≠ '?')
    .ok (if ';' ∈ path then splitParamsPath path else path)

/-- The fallback name `f"image_{hash(url) % 10000}.jpg"`. -/
def fallbackName (h : List Char → Int) (url : List Char) : List Char :=
  "image_".data ++ natRepr ((h url).emod 10000).toNat ++ ".jpg".data

/-- Python `path.split('/')[-1]`: the suffix after the last slash. -/
def lastSegment (path : List Char) : List Char :=
  (path.reverse.takeWhile (· ≠ '/')).reverse

/-- Embedding of `get_filename_from_url` from app.py, parametrized by
the process hash function `h`. -/
def get_filename_from_url (h : List Char → Int) (url : List Char) : List Char :=
  match urlparse_path url with
  | .error _ => fallbackName h url
  | .ok path =>
    let filename := lastSegment path
    if filename = [] ∨ '.' ∉ filename then fallbackName h url else filename

/-- The escaped form of a URL as it appears inside a JSON-encoded string
value: every slash written as the two characters backslash slash. -/
def escapeSlashes (u : List Char) : List Char :=
  u.flatMap (fun c => if c = '/' then ['\\', '/'] else [c])

/-! ## Helper lemmas about digits and padding -/

theorem natDigitsAux_length_ge :
    ∀ fuel n k, n < fuel → 10 ^ k ≤ n → k + 1 ≤ (natDigitsAux fuel n).length := by
  intro fuel
  induction fuel with
  | zero => intro n k h _; omega
  | succ fuel ih =>
    intro n k hlt hk
    simp only [natDigitsAux]
    split
    · next h10 =>
      have hk0 : k = 0 := by
        by_contra hk0
        have h1 : (1 : Nat) ≤ k := by omega
        have : (10 : Nat) ^ 1 ≤ 10 ^ k := Nat.pow_le_pow_right (by omega) h1
        simp at this
        omega
      subst hk0
      simp
    · next h10 =>
      have hn10 : 10 ≤ n := by omega
      cases k with
      | zero => simp
      | succ k2 =>
        have hdiv : 10 ^ k2 ≤ n / 10 := by
          rw [Nat.le_div_iff_mul_le (by omega)]
          calc 10 ^ k2 * 10 = 10 ^ (k2 + 1) := by ring
            _ ≤ n := hk
        have hlt2 : n / 10 < fuel := by
          have := Nat.div_lt_self (by omega : 0 < n) (by omega : 1 < 10)
          omega
        have := ih (n / 10) k2 hlt2 hdiv
        simp only [List.length_append, List.length_cons, List.length_nil]
        omega

theorem natDigitsAux_length_le :
    ∀ fuel n k, n < 10 ^ (k + 1) → (natDigitsAux fuel n).length ≤ k + 1 := by
  intro fuel
  induction fuel with
  | zero => intro n k _; simp [natDigitsAux]
  | succ fuel ih =>
    intro n k hk
    simp only [natDigitsAux]
    split
    · simp
    · next h10 =>
      have hn10 : 10 ≤ n := by omega
      cases k with
      | zero =>
        simp at hk
        omega
      | succ k2 =>
        have hdiv : n / 10 < 10 ^ (k2 + 1) := by
          rw [Nat.div_lt_iff_lt_mul (by omega)]
          calc n < 10 ^ (k2 + 2) := hk
            _ = 10 ^ (k2 + 1) * 10 := by ring
        have := ih (n / 10) k2 hdiv
        simp only [List.length_append, List.length_cons, List.length_nil]
        omega

theorem pad3_eq_natRepr_of_ge (n : Nat) (h : 1000 ≤ n) : pad3 n = natRepr n := by
  have h4 : 3 + 1 ≤ (natRepr n).length :=
    natDigitsAux_length_ge (n + 1) n 3 (Nat.lt_succ_self n) (by norm_num; omega)
  have h0 : 3 - (natRepr n).length = 0 := by omega
  simp [pad3, h0]

theorem pad3_length_of_lt (n : Nat) (h : n < 1000) : (pad3 n).length = 3 := by
  have h3 : (natRepr n).length ≤ 2 + 1 :=
    natDigitsAux_length_le (n + 1) n 2 (by norm_num; omega)
  simp only [pad3, List.length_append, List.length_replicate]
  omega

/-! ## C4, C5, C7: the placeholder name generator -/

/-- C4: under the patterns `original_filename` and
`prefix_original_filename`, a nonempty cleaned prefix (trailing
underscores stripped) yields `prefix_originalfilename` with the original
extension preserved, while an empty cleaned prefix yields the base name
(part before the last dot, or the whole string when there is no dot)
with a forced `.png` extension. -/
theorem placeholder_name_first_two_patterns (orig pfx pat : List Char) (idx : Nat)
    (hpat : pat = "original_filename".data ∨ pat = "prefix_original_filename".data) :
    (rstripUnderscores pfx ≠ [] →
      generate_placeholder_filename orig pat pfx idx = rstripUnderscores pfx ++ '_' :: orig) ∧
    (rstripUnderscores pfx = [] →
      generate_placeholder_filename orig pat pfx idx = baseName orig ++ ".png".data) := by
  rcases hpat with h | h <;> subst h <;>
    constructor <;> intro hcp <;>
      simp [generate_placeholder_filename, baseName, hcp]

/-- Witness for C4 at the spec's example inputs. -/
theorem placeholder_name_first_two_patterns_witness :
    generate_placeholder_filename "photo.jpg".data "original_filename".data "ph".data 1 =
      "ph_photo.jpg".data := by
  have h := (placeholder_name_first_two_patterns "photo.jpg".data "ph".data
    "original_filename".data 1 (Or.inl rfl)).1 (by decide)
  rw [h]; decide

/-- C5: under `prefix_index_original_filename` the index is rendered
zero-padded to width 3 (and unpadded, not truncated, from 1000 up); a
nonempty cleaned prefix yields `prefix_paddedindex_originalfilename`,
an empty one yields `paddedindex_name.png`. -/
theorem placeholder_name_indexed_pattern (orig pfx : List Char) (idx : Nat)
    (hpos : 1 ≤ idx) :
    (1000 ≤ idx → pad3 idx = natRepr idx) ∧
    (idx < 1000 → (pad3 idx).length = 3) ∧
    (rstripUnderscores pfx ≠ [] →
      generate_placeholder_filename orig "prefix_index_original_filename".data pfx idx =
        rstripUnderscores pfx ++ '_' :: (pad3 idx ++ '_' :: orig)) ∧
    (rstripUnderscores pfx = [] →
      generate_placeholder_filename orig "prefix_index_original_filename".data pfx idx =
        pad3 idx ++ '_' :: (baseName orig ++ ".png".data)) := by
  refine ⟨fun h => pad3_eq_natRepr_of_ge idx h, fun h => pad3_length_of_lt idx h, ?_, ?_⟩ <;>
    intro hcp <;> simp [generate_placeholder_filename, baseName, hcp]

/-- Witness for C5 at the spec's example inputs. -/
theorem placeholder_name_indexed_pattern_witness :
    generate_placeholder_filename "photo.jpg".data "prefix_index_original_filename".data
      "ph".data 7 = "ph_007_photo.jpg".data := by
  have h := (placeholder_name_indexed_pattern "photo.jpg".data "ph".data 7
    (by decide)).2.2.1 (by decide)
  rw [h]; decide

/-- C7: any pattern outside the enumerated set falls back to
`placeholder_name.png`, ignoring prefix and index; the function is total
so it never raises. -/
theorem placeholder_name_unrecognized_pattern (orig pfx pat : List Char) (idx : Nat)
    (hpat : pat ∉ ["original_filename".data, "prefix_original_filename".data,
      "original_filename_suffix".data, "prefix_index_original_filename".data]) :
    generate_placeholder_filename orig pat pfx idx =
      "placeholder_".data ++ (baseName orig ++ ".png".data) := by
  simp only [List.mem_cons, List.not_mem_nil, or_false, not_or] at hpat
  obtain ⟨h1, h2, h3, h4⟩ := hpat
  simp only [generate_placeholder_filename, baseName]
  rw [if_neg h1, if_neg h2, if_neg h3, if_neg h4]

/-- Witness for C7 at a concrete unrecognized pattern. -/
theorem placeholder_name_unrecognized_pattern_witness :
    generate_placeholder_filename "photo.jpg".data "bogus".data "ph".data 3 =
      "placeholder_photo.png".data := by
  have h := placeholder_name_unrecognized_pattern "photo.jpg".data "ph".data
    "bogus".data 3 (by decide)
  rw [h]; decide

/-! ## C3: the format resolver -/

/-- C3 counterexample: for a URL ending in `.bmp` and no probed format,
the code returns JPEG, not the BMP demanded by the claim's suffix
table. -/
theorem format_resolver_suffix_table_counterexample :
    get_image_format_from_image none "https://x.com/a.bmp".data = "JPEG".data ∧
    "JPEG".data ≠ "BMP".data := by
  exact ⟨by decide, by decide⟩

/-- C3 amended: a truthy probed format wins; otherwise the resolver is
given by ordered substring checks of `.png`, `.webp`, `.gif` against the
lowercased URL, with JPEG as the default for everything else. -/
theorem format_resolver_characterization (probed : Option (List Char)) (url : List Char) :
    (∀ f, probed = some f → f ≠ [] → get_image_format_from_image probed url = f) ∧
    (probed = none ∨ probed = some [] →
      ((containsSub ".png".data (url.map Char.toLower) = true →
          get_image_format_from_image probed url = "PNG".data) ∧
       (containsSub ".png".data (url.map Char.toLower) = false →
        containsSub ".webp".data (url.map Char.toLower) = true →
          get_image_format_from_image probed url = "WEBP".data) ∧
       (containsSub ".png".data (url.map Char.toLower) = false →
        containsSub ".webp".data (url.map Char.toLower) = false →
        containsSub ".gif".data (url.map Char.toLower) = true →
          get_image_format_from_image probed url = "GIF".data) ∧
       (containsSub ".png".data (url.map Char.toLower) = false →
        containsSub ".webp".data (url.map Char.toLower) = false →
        containsSub ".gif".data (url.map Char.toLower) = false →
          get_image_format_from_image probed url = "JPEG".data))) := by
  constructor
  · rintro f rfl hf
    simp [get_image_format_from_image, hf]
  · rintro (rfl | rfl) <;>
      exact ⟨fun h1 => by simp [get_image_format_from_image, formatFromUrl, h1],
             fun h1 h2 => by simp [get_image_format_from_image, formatFromUrl, h1, h2],
             fun h1 h2 h3 => by simp [get_image_format_from_image, formatFromUrl, h1, h2, h3],
             fun h1 h2 h3 => by simp [get_image_format_from_image, formatFromUrl, h1, h2, h3]⟩

/-- Witness for C3's amended claim: a probed format wins. -/
theorem format_resolver_characterization_witness :
    get_image_format_from_image (some "TIFF".data) "https://x.com/a.png".data =
      "TIFF".data := by
  exact (format_resolver_characterization (some "TIFF".data)
    "https://x.com/a.png".data).1 "TIFF".data rfl (by decide)

/-! ## C1: unescaped direct URLs are lost -/

/-- C1: the direct pattern is built by concatenating the
`image_extensions` fragment, which contains a capturing group, so
`re.findall` collects only the extension text; the bare extension then
fails the URL validation and the input's unescaped URL is lost. At the
claim's example input the code returns the empty set instead of a set
containing the URL. -/
theorem extract_drops_unescaped_direct_url :
    extract_image_urls "\x7b\"a\": \"https://x.com/b.png\"\x7d".data = [] ∧
    directFindall "\x7b\"a\": \"https://x.com/b.png\"\x7d".data = ["png".data] := by
  exact ⟨by decide, by decide⟩

/-! ## Generic list helpers -/

theorem takeWhile_append_cons {p : Char → Bool} {x : Char} {l1 l2 : List Char}
    (h : ∀ c ∈ l1, p c = true) (hx : p x = false) :
    (l1 ++ x :: l2).takeWhile p = l1 := by
  have h1 : l1.takeWhile p = l1 := List.takeWhile_eq_self_iff.mpr h
  rw [List.takeWhile_append, if_pos (by rw [h1]),
    List.takeWhile_cons_of_neg (by simp [hx]), List.append_nil]

theorem dropWhile_append_cons {p : Char → Bool} {x : Char} {l1 l2 : List Char}
    (h : ∀ c ∈ l1, p c = true) (hx : p x = false) :
    (l1 ++ x :: l2).dropWhile p = x :: l2 := by
  have h1 : l1.dropWhile p = [] := List.dropWhile_eq_nil_iff.mpr h
  rw [List.dropWhile_append, if_pos (by simp [h1]),
    List.dropWhile_cons_of_neg (by simp [hx])]

theorem takeWhile_append_stop {p : Char → Bool} {x : Char} {l1 l2 : List Char}
    (hx : p x = false) :
    (l1 ++ x :: l2).takeWhile p = l1.takeWhile p := by
  rw [List.takeWhile_append]
  split
  · next heq =>
    have h1 : l1.takeWhile p = l1 := (List.takeWhile_prefix p).eq_of_length heq
    rw [List.takeWhile_cons_of_neg (by simp [hx]), List.append_nil, h1]
  · rfl

theorem mem_take_append_of_lt {x : Char} :
    ∀ (l1 l2 : List Char) (m : Nat), l1.length < m → x ∈ (l1 ++ x :: l2).take m := by
  intro l1
  induction l1 with
  | nil =>
    intro l2 m hm
    cases m with
    | zero => omega
    | succ m2 => simp
  | cons c t ih =>
    intro l2 m hm
    cases m with
    | zero => simp at hm
    | succ m2 =>
      simp only [List.cons_append, List.take_succ_cons, List.mem_cons]
      exact Or.inr (ih l2 m2 (by simp at hm; omega))

/-! ## Lemmas about the regex building blocks -/

theorem ciPrefix_eq_isPrefixOf : ∀ (p cs : List Char),
    ciPrefix p cs = p.isPrefixOf (cs.map Char.toLower)
  | [], cs => by cases cs <;> simp [ciPrefix, List.isPrefixOf]
  | a :: as, [] => by simp [ciPrefix, List.isPrefixOf]
  | a :: as, c :: cs => by
    simp only [ciPrefix, List.map_cons, List.isPrefixOf_cons₂ ]
    rw [ciPrefix_eq_isPrefixOf as cs]

theorem ciPrefix_true_iff {p cs : List Char} :
    ciPrefix p cs = true ↔ p <+: cs.map Char.toLower := by
  rw [ciPrefix_eq_isPrefixOf]
  exact List.isPrefixOf_iff_prefix

theorem ciPrefix_length_le {p cs : List Char} (h : ciPrefix p cs = true) :
    p.length ≤ cs.length := by
  have := (ciPrefix_true_iff.mp h).length_le
  simpa using this

theorem ciPrefix_take_map {p cs : List Char} (h : ciPrefix p cs = true) :
    (cs.take p.length).map Char.toLower = p := by
  have h2 := ciPrefix_true_iff.mp h
  have h3 : p = (cs.map Char.toLower).take p.length := List.prefix_iff_eq_take.mp h2
  rw [← List.map_take] at h3
  exact h3.symm

theorem extAtCI_spec {cs e : List Char} (h : extAtCI cs = some e) :
    e = cs.take e.length ∧ e.map Char.toLower ∈ imageExts ∧ e ≠ [] ∧ e.length ≤ cs.length := by
  obtain ⟨ext, hmem, hext⟩ := List.exists_of_findSome?_eq_some h
  by_cases hp : ciPrefix ext cs = true
  · rw [if_pos hp] at hext
    have he : e = cs.take ext.length := by injection hext with h2; exact h2.symm
    have hle : ext.length ≤ cs.length := ciPrefix_length_le hp
    have hlen : e.length = ext.length := by
      rw [he, List.length_take]
      omega
    have hmap : e.map Char.toLower = ext := by rw [he, ciPrefix_take_map hp]
    have hne : ext ≠ [] := by
      have : ∀ x ∈ imageExts, x ≠ [] := by decide
      exact this ext hmem
    refine ⟨by rw [hlen, ← he], by rw [hmap]; exact hmem, ?_, by omega⟩
    intro h0
    rw [h0] at hmap
    exact hne (by simpa using hmap.symm)
  · rw [if_neg hp] at hext
    exact absurd hext (by simp)

theorem extAtCI_of_lower {e alt : List Char} (halt : alt ∈ imageExts)
    (hmap : e.map Char.toLower = alt) : extAtCI e = some e := by
  have hlen : e.length = alt.length := by
    rw [← hmap, List.length_map]
  fin_cases halt <;>
    simp only [List.length_cons, List.length_nil] at hlen <;>
    simp [extAtCI, imageExts, List.findSome?_cons, ciPrefix_eq_isPrefixOf, hmap,
      List.take_of_length_le, Nat.le_of_eq hlen]

/-! ## Lemmas about the backtracking dot-extension search -/

theorem findDotExtAux_spec {body : List Char} :
    ∀ j k e, findDotExtAux body j = some (k, e) →
      1 ≤ k ∧ body.get? k = some '.' ∧ extAtCI (body.drop (k + 1)) = some e := by
  intro j
  induction j with
  | zero => intro k e h; simp [findDotExtAux] at h
  | succ j ih =>
    intro k e h
    simp only [findDotExtAux] at h
    split at h
    · next hdot =>
      split at h
      · next e2 hext =>
        obtain ⟨hk, he⟩ : j + 1 = k ∧ e2 = e := by
          injection h with h2
          injection h2 with h3 h4
          exact ⟨h3, h4⟩
        subst hk
        subst he
        exact ⟨by omega, hdot, hext⟩
      · exact ih k e h
    · exact ih k e h

theorem findDotExtAux_ext_end {B e : List Char} (hB : 1 ≤ B.length) (hdot : '.' ∉ e)
    (hext : extAtCI e = some e) :
    ∀ d, d ≤ e.length → findDotExtAux (B ++ '.' :: e) (B.length + d) = some (B.length, e) := by
  intro d
  induction d with
  | zero =>
    intro _
    obtain ⟨bl, hbl⟩ : ∃ bl, B.length = bl + 1 := ⟨B.length - 1, by omega⟩
    have hget : (B ++ '.' :: e).get? (B.length + 0) = some '.' := by
      rw [List.get?_eq_getElem?, List.getElem?_append_right (by omega)]
      simp
    have hdrop : (B ++ '.' :: e).drop (B.length + 1) = e := by
      have hda := @List.drop_append Char B ('.' :: e) 1
      simpa using hda
    rw [Nat.add_zero, hbl] at hget hdrop ⊢
    simp only [findDotExtAux]
    rw [if_pos hget, hdrop, hext]
  | succ d ih =>
    intro hd
    have harith : B.length + (d + 1) = (B.length + d) + 1 := by omega
    rw [harith]
    have hgetc : (B ++ '.' :: e).get? (B.length + d + 1) = e.get? d := by
      rw [List.get?_eq_getElem?, List.getElem?_append_right (by omega), List.get?_eq_getElem?]
      have : B.length + d + 1 - B.length = d + 1 := by omega
      rw [this, List.getElem?_cons_succ]
    have hne : ¬((B ++ '.' :: e).get? (B.length + d + 1) = some '.') := by
      rw [hgetc]
      intro hc
      have hmem : '.' ∈ e := by
        have hdlt : d < e.length := by omega
        rw [List.get?_eq_getElem?, List.getElem?_eq_getElem hdlt] at hc
        injection hc with hc2
        rw [← hc2]
        exact List.getElem_mem hdlt
      exact hdot hmem
    simp only [findDotExtAux]
    rw [if_neg hne]
    exact ih (by omega)

theorem findDotExt_ext_end {B e : List Char} (hB : 1 ≤ B.length) (hdot : '.' ∉ e)
    (hext : extAtCI e = some e) :
    findDotExt (B ++ '.' :: e) = some (B.length, e) := by
  have hlen : (B ++ '.' :: e).length - 1 = B.length + e.length := by
    simp [List.length_append]
  rw [findDotExt, hlen]
  exact findDotExtAux_ext_end hB hdot hext e.length (le_refl _)

/-! ## Specifications of the two pattern matchers -/

theorem matchSchemeLen_spec {pats : List (List Char)} {cs : List Char} {L : Nat}
    (h : matchSchemeLen pats cs = some L) :
    ∃ p ∈ pats, ciPrefix p cs = true ∧ L = p.length := by
  obtain ⟨p, hmem, hp⟩ := List.exists_of_findSome?_eq_some h
  by_cases hc : ciPrefix p cs = true
  · rw [if_pos hc] at hp
    injection hp with h2
    exact ⟨p, hmem, hc, h2.symm⟩
  · rw [if_neg hc] at hp
    exact absurd hp (by simp)

theorem classE_ne_quote {c : Char} (h : classE c = true) : c ≠ '"' := by
  simp [classE] at h
  tauto

theorem classD_ne_quote {c : Char} (h : classD c = true) : c ≠ '"' := by
  simp [classD] at h
  tauto

/-- Everything established about a successful escaped-pattern match: the
collected text is the consumed prefix of the input, contains no double
quote, and ends in a dot followed by a recognized extension. -/
theorem escMatchF_spec {cs : List Char} {n : Nat} {v : List Char}
    (h : escMatchF cs = some (n, v)) :
    v = cs.take (n + 1) ∧ '"' ∉ v ∧
      ∃ w e, v = w ++ '.' :: e ∧ e.map Char.toLower ∈ imageExts ∧ e ≠ [] := by
  unfold escMatchF at h
  cases hS : matchSchemeLen escSchemePats cs with
  | none => rw [hS] at h; exact absurd h (by simp)
  | some L =>
    rw [hS] at h
    try simp only at h
    cases hF : findDotExt ((cs.drop L).takeWhile classE) with
    | none => rw [hF] at h; exact absurd h (by simp)
    | some ke =>
      obtain ⟨k, e⟩ := ke
      rw [hF] at h
      try simp only at h
      obtain ⟨hn, hv⟩ : L + k + e.length = n ∧ cs.take (L + k + 1 + e.length) = v := by
        injection h with h2
        injection h2 with h3 h4
        exact ⟨h3, h4⟩
      subst hn
      set body := (cs.drop L).takeWhile classE with hbody
      obtain ⟨hk1, hgetk, hextk⟩ := findDotExtAux_spec (body.length - 1) k e hF
      obtain ⟨he_take, he_mem, he_ne, he_len⟩ := extAtCI_spec hextk
      have hklt : k < body.length := by
        rw [List.get?_eq_getElem?] at hgetk
        have := List.getElem?_eq_some_iff.mp hgetk
        exact this.1
      have hdropk : body.drop k = '.' :: body.drop (k + 1) := by
        have h1 := List.drop_eq_getElem_cons hklt
        rw [List.get?_eq_getElem?, List.getElem?_eq_getElem hklt] at hgetk
        injection hgetk with h2
        rw [h1, h2]
      have hlen_drop : (body.drop (k + 1)).length = body.length - (k + 1) := by
        simp
      have hm_le : k + 1 + e.length ≤ body.length := by
        rw [hlen_drop] at he_len
        omega
      have hbody_take : body.take (k + 1 + e.length) = body.take k ++ '.' :: e := by
        have harith : k + 1 + e.length = k + (e.length + 1) := by omega
        rw [harith, List.take_add, hdropk, List.take_succ_cons, ← he_take]
      have hprefix : body <+: cs.drop L := List.takeWhile_prefix classE
      have hbody_eq : body = (cs.drop L).take body.length :=
        List.prefix_iff_eq_take.mp hprefix
      have hdrop_take : (cs.drop L).take (k + 1 + e.length) = body.take (k + 1 + e.length) := by
        conv_rhs => rw [hbody_eq]
        rw [List.take_take, Nat.min_eq_left hm_le]
      have hv2 : v = cs.take L ++ (body.take k ++ '.' :: e) := by
        rw [← hv]
        have harith : L + k + 1 + e.length = L + (k + 1 + e.length) := by omega
        rw [harith, List.take_add, hdrop_take, hbody_take]
      refine ⟨by rw [← hv]; congr 1; omega, ?_, cs.take L ++ body.take k, e,
        by rw [hv2, List.append_assoc], he_mem, he_ne⟩
      -- no double quote anywhere in the match
      rw [hv2]
      intro hqm
      rcases List.mem_append.mp hqm with hq1 | hq2
      · obtain ⟨p, hpmem, hpci, hLp⟩ := matchSchemeLen_spec hS
        have hmap := ciPrefix_take_map hpci
        rw [← hLp] at hmap
        have hqlow : ('"' : Char).toLower ∈ p := by
          rw [← hmap]
          exact List.mem_map_of_mem Char.toLower hq1
        have hquote_lower : ('"' : Char).toLower = '"' := by decide
        rw [hquote_lower] at hqlow
        have hnoq : ∀ q ∈ escSchemePats, '"' ∉ q := by decide
        exact hnoq p hpmem hqlow
      · have hq_body : ('"' : Char) ∈ body := by
          rcases List.mem_append.mp hq2 with hq3 | hq4
          · exact List.mem_of_mem_take hq3
          · rcases List.mem_cons.mp hq4 with hq5 | hq6
            · exact absurd hq5.symm (by decide)
            · have : ('"' : Char) ∈ body.drop (k + 1) := by
                rw [he_take] at hq6
                exact List.mem_of_mem_take hq6
              exact List.mem_of_mem_drop this
        exact classE_ne_quote (List.mem_takeWhile_imp hq_body) rfl

/-- Everything established about a successful direct-pattern match: the
collected group text is a recognized extension occurring inside the
input. -/
theorem dirMatchF_spec {cs : List Char} {n : Nat} {v : List Char}
    (h : dirMatchF cs = some (n, v)) :
    v.map Char.toLower ∈ imageExts ∧ v ≠ [] ∧ v <:+: cs ∧ v.length ≤ 4 := by
  unfold dirMatchF at h
  cases hS : matchSchemeLen dirSchemePats cs with
  | none => rw [hS] at h; exact absurd h (by simp)
  | some L =>
    rw [hS] at h
    try simp only at h
    cases hF : findDotExt ((cs.drop L).takeWhile classD) with
    | none => rw [hF] at h; exact absurd h (by simp)
    | some ke =>
      obtain ⟨k, e⟩ := ke
      rw [hF] at h
      try simp only at h
      obtain ⟨hn, hv⟩ : L + k + e.length = n ∧ e = v := by
        injection h with h2
        injection h2 with h3 h4
        exact ⟨h3, h4⟩
      subst hv
      set body := (cs.drop L).takeWhile classD with hbody
      obtain ⟨hk1, hgetk, hextk⟩ := findDotExtAux_spec (body.length - 1) k e hF
      obtain ⟨he_take, he_mem, he_ne, he_len⟩ := extAtCI_spec hextk
      have hinfix : e <:+: cs := by
        have h1 : e <+: body.drop (k + 1) := by
          rw [he_take]
          exact List.take_prefix _ _
        have h2 : body.drop (k + 1) <:+ body := List.drop_suffix _ _
        have h3 : body <+: cs.drop L := List.takeWhile_prefix classD
        have h4 : cs.drop L <:+ cs := List.drop_suffix _ _
        exact (h1.isInfix.trans h2.isInfix).trans (h3.isInfix.trans h4.isInfix)
      have hlen4 : e.length ≤ 4 := by
        have hx : ∀ x ∈ imageExts, x.length ≤ 4 := by decide
        have h5 := hx (e.map Char.toLower) he_mem
        simpa using h5
      exact ⟨he_mem, he_ne, hinfix, hlen4⟩

/-! ## Lemmas about the findall scanner -/

theorem reScanAux_sound {f : List Char → Option (Nat × List Char)} :
    ∀ (l : List Char) (skip : Nat) (x : List Char), x ∈ reScanAux f l skip →
      ∃ s n, s <:+ l ∧ f s = some (n, x) := by
  intro l
  induction l with
  | nil => intro skip x h; cases skip <;> simp [reScanAux] at h
  | cons c cs ih =>
    intro skip x h
    cases skip with
    | succ s =>
      simp only [reScanAux] at h
      obtain ⟨s2, n, hs, hf⟩ := ih s x h
      exact ⟨s2, n, hs.trans (List.suffix_cons c cs), hf⟩
    | zero =>
      simp only [reScanAux] at h
      cases hf : f (c :: cs) with
      | some nv =>
        obtain ⟨n0, v0⟩ := nv
        rw [hf] at h
        try simp only at h
        rcases List.mem_cons.mp h with rfl | h2
        · exact ⟨c :: cs, n0, List.suffix_refl _, hf⟩
        · obtain ⟨s2, n, hs, hf2⟩ := ih n0 x h2
          exact ⟨s2, n, hs.trans (List.suffix_cons c cs), hf2⟩
      | none =>
        rw [hf] at h
        try simp only at h
        obtain ⟨s2, n, hs, hf2⟩ := ih 0 x h
        exact ⟨s2, n, hs.trans (List.suffix_cons c cs), hf2⟩

theorem reScanAux_empty {f : List Char → Option (Nat × List Char)} :
    ∀ (l : List Char) (skip : Nat), (∀ s, s <:+ l → f s = none) →
      reScanAux f l skip = [] := by
  intro l
  induction l with
  | nil => intro skip _; cases skip <;> rfl
  | cons c cs ih =>
    intro skip h
    cases skip with
    | succ s =>
      simp only [reScanAux]
      exact ih s (fun s2 hs => h s2 (hs.trans (List.suffix_cons c cs)))
    | zero =>
      simp only [reScanAux]
      rw [h (c :: cs) (List.suffix_refl _)]
      exact ih 0 (fun s2 hs => h s2 (hs.trans (List.suffix_cons c cs)))

theorem reScanAux_boundary {f : List Char → Option (Nat × List Char)}
    (hq : ∀ cs n v, f cs = some (n, v) → '"' ∉ cs.take (n + 1)) {l2 : List Char} :
    ∀ (l1 : List Char) (skip : Nat), skip ≤ l1.length →
      ∀ x, x ∈ reScanAux f l2 0 → x ∈ reScanAux f (l1 ++ '"' :: l2) skip := by
  intro l1
  induction l1 with
  | nil =>
    intro skip hskip x hx
    have hz : skip = 0 := by simpa using hskip
    subst hz
    simp only [List.nil_append, reScanAux]
    have hf : f ('"' :: l2) = none := by
      cases hfq : f ('"' :: l2) with
      | none => rfl
      | some nv =>
        obtain ⟨n, v⟩ := nv
        have hquote := hq _ _ _ hfq
        exact absurd (by simp : ('"' : Char) ∈ ('"' :: l2).take (n + 1)) hquote
    rw [hf]
    exact hx
  | cons c t ih =>
    intro skip hskip x hx
    cases skip with
    | succ s =>
      simp only [List.cons_append, reScanAux]
      exact ih s (by simp at hskip; omega) x hx
    | zero =>
      simp only [List.cons_append, reScanAux]
      cases hf : f (c :: (t ++ '"' :: l2)) with
      | none => exact ih 0 (by omega) x hx
      | some nv =>
        obtain ⟨n, v⟩ := nv
        have hn_le : n ≤ t.length := by
          by_contra hgt
          have h2 := hq _ _ _ hf
          have h3 : ('"' : Char) ∈ (c :: (t ++ '"' :: l2)).take (n + 1) := by
            have h4 : (c :: t).length < n + 1 := by simp; omega
            exact mem_take_append_of_lt (c :: t) l2 (n + 1) h4
          exact h2 h3
        exact List.mem_cons.mpr (Or.inr (ih n hn_le x hx))

/-! ## Lemmas about the cleanup fold -/

theorem mem_insertSet_iff {s : List (List Char)} {x y : List Char} :
    x ∈ insertSet s y ↔ x ∈ s ∨ x = y := by
  unfold insertSet
  split
  · next hy =>
    constructor
    · exact fun h => Or.inl h
    · rintro (h | rfl)
      · exact h
      · exact hy
  · simp

theorem mem_cleanStep_of_mem {acc : List (List Char)} {v x : List Char} (h : x ∈ acc) :
    x ∈ cleanStep acc v := by
  unfold cleanStep
  split
  · exact mem_insertSet_iff.mpr (Or.inl h)
  · exact h

theorem mem_foldl_cleanStep_of_mem {l : List (List Char)} :
    ∀ acc x, x ∈ acc → x ∈ l.foldl cleanStep acc := by
  induction l with
  | nil => intro acc x h; exact h
  | cons c t ih =>
    intro acc x h
    exact ih (cleanStep acc c) x (mem_cleanStep_of_mem h)

theorem mem_foldl_cleanStep_of_valid {l : List (List Char)} :
    ∀ acc v, v ∈ l → validUrl (stripTrailingPunc v) = true →
      stripTrailingPunc v ∈ l.foldl cleanStep acc := by
  induction l with
  | nil => intro acc v hv _; simp at hv
  | cons c t ih =>
    intro acc v hv hval
    rcases List.mem_cons.mp hv with rfl | h2
    · rw [List.foldl_cons]
      apply mem_foldl_cleanStep_of_mem
      unfold cleanStep
      rw [if_pos hval]
      exact mem_insertSet_iff.mpr (Or.inr rfl)
    · rw [List.foldl_cons]
      exact ih (cleanStep acc c) v h2 hval

theorem foldl_cleanStep_sound {l : List (List Char)} :
    ∀ acc x, x ∈ l.foldl cleanStep acc →
      x ∈ acc ∨ ∃ v ∈ l, x = stripTrailingPunc v ∧ validUrl x = true := by
  induction l with
  | nil => intro acc x h; exact Or.inl h
  | cons c t ih =>
    intro acc x h
    rw [List.foldl_cons] at h
    rcases ih (cleanStep acc c) x h with h2 | ⟨v, hv, hx, hval⟩
    · unfold cleanStep at h2
      split at h2
      · next hvc =>
        rcases mem_insertSet_iff.mp h2 with h3 | rfl
        · exact Or.inl h3
        · exact Or.inr ⟨c, by simp, rfl, hvc⟩
      · exact Or.inl h2
    · exact Or.inr ⟨v, by simp [hv], hx, hval⟩

/-! ## Lemmas about trailing-punctuation removal -/

theorem stripTrailingPunc_id {l : List Char} {c : Char} (hl : l.getLast? = some c)
    (hp : puncChar c = false) (hn : c ≠ '\n') : stripTrailingPunc l = l := by
  unfold stripTrailingPunc
  rw [if_neg (by rw [hl]; intro h; injection h with h2; exact hn h2)]
  unfold rstripPunc
  have hrev : l.reverse.head? = some c := by rw [List.head?_reverse, hl]
  cases hr : l.reverse with
  | nil => rw [hr] at hrev; simp at hrev
  | cons a t =>
    rw [hr] at hrev
    injection hrev with ha
    subst ha
    rw [List.dropWhile_cons_of_neg (by simp [hp]), ← hr, List.reverse_reverse]

theorem lastChar_of_ext {e : List Char} (hmem : e.map Char.toLower ∈ imageExts) :
    ∃ c, e.getLast? = some c ∧ c.toLower ∈ ['g', 'f', 'p', 'o', 'c'] := by
  have hfacts : ∀ x ∈ imageExts, x ≠ [] ∧
      ∀ y, x.getLast? = some y → y ∈ ['g', 'f', 'p', 'o', 'c'] := by decide
  have hne : e ≠ [] := by
    intro h0
    subst h0
    exact (hfacts [] hmem).1 rfl
  cases hgl : e.getLast? with
  | none => exact absurd (List.getLast?_eq_none_iff.mp hgl) hne
  | some c =>
    refine ⟨c, rfl, ?_⟩
    have hmapl : (e.map Char.toLower).getLast? = some c.toLower := by
      rw [List.getLast?_map, hgl]
      rfl
    exact (hfacts (e.map Char.toLower) hmem).2 c.toLower hmapl

theorem extLast_not_punc {c : Char} (h : c.toLower ∈ ['g', 'f', 'p', 'o', 'c']) :
    puncChar c = false ∧ c ≠ '\n' := by
  constructor
  · cases hp : puncChar c with
    | false => rfl
    | true =>
      have hc := by simpa [puncChar] using hp
      rcases hc with ((((rfl | rfl) | rfl) | rfl) | rfl) | rfl <;> exact absurd h (by decide)
  · rintro rfl
    exact absurd h (by decide)

/-! ## Lemmas about the validation regex -/

theorem dotSearch_spec : ∀ (l : List Char) (s : Bool), dotSearch s l = true →
    ∃ a b, l = a ++ '.' :: b ∧ (s = false → a ≠ []) ∧ b ≠ [] := by
  intro l
  induction l with
  | nil => intro s h; simp [dotSearch] at h
  | cons c cs ih =>
    intro s h
    simp only [dotSearch] at h
    split at h
    · exact absurd h (by simp)
    · split at h
      · next hcond =>
        simp only [Bool.and_eq_true, beq_iff_eq] at hcond
        obtain ⟨⟨hseen, hdot⟩, hnext⟩ := hcond
        subst hdot
        cases cs with
        | nil => simp at hnext
        | cons d rest =>
          exact ⟨[], d :: rest, rfl, fun hs => absurd hseen (by rw [hs]; simp), by simp⟩
      · obtain ⟨a, b, hab, _, hb⟩ := ih true h
        exact ⟨c :: a, b, by rw [hab]; rfl, fun _ => by simp, hb⟩

theorem dotSearch_append : ∀ (m : List Char) (s : Bool) (d : Char) (rest : List Char),
    (∀ c ∈ m, c ≠ '\n') → (s = true ∨ m ≠ []) → d ≠ '\n' →
    dotSearch s (m ++ '.' :: d :: rest) = true := by
  intro m
  induction m with
  | nil =>
    rintro s d rest _ hs hd
    have hst : s = true := by
      rcases hs with h | h
      · exact h
      · exact absurd rfl h
    subst hst
    simp [dotSearch, hd]
  | cons c t ih =>
    intro s d rest hm hs hd
    have hc : c ≠ '\n' := hm c (by simp)
    simp only [List.cons_append, dotSearch]
    rw [if_neg hc]
    split
    · rfl
    · exact ih true d rest (fun x hx => hm x (by simp [hx])) (Or.inl rfl) hd

theorem validUrl_spec {x : List Char} (h : validUrl x = true) :
    ∃ r, (x = "https://".data ++ r ∨ x = "http://".data ++ r) ∧
      ∃ a b, r = a ++ '.' :: b ∧ a ≠ [] ∧ b ≠ [] := by
  unfold validUrl at h
  split at h
  · next hp =>
    have hpre := List.isPrefixOf_iff_prefix.mp hp
    have hx : x = "https://".data ++ x.drop 8 := by
      obtain ⟨t, ht⟩ := hpre
      rw [← ht]
      congr 1
    obtain ⟨a, b, hab, ha, hb⟩ := dotSearch_spec (x.drop 8) false h
    exact ⟨x.drop 8, Or.inl hx, a, b, hab, ha rfl, hb⟩
  · split at h
    · next hp =>
      have hpre := List.isPrefixOf_iff_prefix.mp hp
      have hx : x = "http://".data ++ x.drop 7 := by
        obtain ⟨t, ht⟩ := hpre
        rw [← ht]
        congr 1
      obtain ⟨a, b, hab, ha, hb⟩ := dotSearch_spec (x.drop 7) false h
      exact ⟨x.drop 7, Or.inr hx, a, b, hab, ha rfl, hb⟩
    · exact absurd h (by simp)

/-! ## Lemmas about slash unescaping and escaping -/

theorem replEscSlash_cons_ne {c : Char} {t : List Char} (hc : c ≠ '\\') :
    replEscSlash (c :: t) = c :: replEscSlash t := by
  rw [replEscSlash.eq_def]
  split
  · next cs heq =>
    injection heq with h1 h2
    exact absurd h1 hc
  · next c2 cs hno heq =>
    injection heq with h3 h4
    subst h3
    subst h4
    rfl
  · next heq => exact absurd heq (by simp)

theorem replEscSlash_cons_backslash {t : List Char} (ht : t.head? ≠ some '/') :
    replEscSlash ('\\' :: t) = '\\' :: replEscSlash t := by
  rw [replEscSlash.eq_def]
  split
  · next cs heq =>
    injection heq with h1 h2
    rw [h2] at ht
    simp at ht
  · next c2 cs hno heq =>
    injection heq with h3 h4
    subst h3
    subst h4
    rfl
  · next heq => exact absurd heq (by simp)

theorem replEscSlash_no_backslash {l : List Char} (h : '\\' ∉ l) : replEscSlash l = l := by
  induction l with
  | nil => rfl
  | cons c t ih =>
    have hc : c ≠ '\\' := by
      intro hh
      exact h (by simp [hh])
    rw [replEscSlash_cons_ne hc, ih (fun hm => h (by simp [hm]))]

theorem replEscSlash_append_tail : ∀ (l1 l2 : List Char), '\\' ∉ l2 → l2.head? ≠ some '/' →
    replEscSlash (l1 ++ l2) = replEscSlash l1 ++ l2
  | [], l2, h2, _ => by
    rw [List.nil_append, replEscSlash_no_backslash h2]
    rfl
  | [c], l2, h2, hh => by
    by_cases hc : c = '\\'
    · subst hc
      rw [List.cons_append, List.nil_append, replEscSlash_cons_backslash hh,
        replEscSlash_no_backslash h2]
      rfl
    · rw [List.cons_append, List.nil_append, replEscSlash_cons_ne hc,
        replEscSlash_no_backslash h2, replEscSlash_cons_ne hc]
      rfl
  | c :: d :: t, l2, h2, hh => by
    by_cases hc : c = '\\'
    · subst hc
      by_cases hd : d = '/'
      · subst hd
        have ih := replEscSlash_append_tail t l2 h2 hh
        calc replEscSlash (('\\' :: '/' :: t) ++ l2)
            = '/' :: replEscSlash (t ++ l2) := rfl
          _ = '/' :: (replEscSlash t ++ l2) := by rw [ih]
          _ = replEscSlash ('\\' :: '/' :: t) ++ l2 := rfl
      · have ih := replEscSlash_append_tail (d :: t) l2 h2 hh
        have hh1 : ((d :: t) ++ l2).head? ≠ some '/' := by
          simp only [List.cons_append, List.head?_cons]
          intro hx
          injection hx with hx2
          exact hd hx2
        have hh2 : (d :: t).head? ≠ some '/' := by
          simp only [List.head?_cons]
          intro hx
          injection hx with hx2
          exact hd hx2
        rw [List.cons_append, replEscSlash_cons_backslash hh1,
          replEscSlash_cons_backslash hh2, ih]
        rfl
    · have ih := replEscSlash_append_tail (d :: t) l2 h2 hh
      rw [List.cons_append, replEscSlash_cons_ne hc, ih, replEscSlash_cons_ne hc]
      rfl

theorem escapeSlashes_cons (c : Char) (t : List Char) :
    escapeSlashes (c :: t) =
      (if c = '/' then ['\\', '/'] else [c]) ++ escapeSlashes t := by
  simp [escapeSlashes]

theorem escapeSlashes_append (l1 l2 : List Char) :
    escapeSlashes (l1 ++ l2) = escapeSlashes l1 ++ escapeSlashes l2 := by
  simp [escapeSlashes]

theorem escapeSlashes_no_slash {l : List Char} (h : '/' ∉ l) : escapeSlashes l = l := by
  induction l with
  | nil => rfl
  | cons c t ih =>
    have hc : c ≠ '/' := fun hh => h (by simp [hh])
    rw [escapeSlashes_cons, if_neg hc, ih (fun hm => h (by simp [hm]))]
    rfl

theorem escapeSlashes_ne_nil {l : List Char} (h : l ≠ []) : escapeSlashes l ≠ [] := by
  cases l with
  | nil => exact absurd rfl h
  | cons c t =>
    rw [escapeSlashes_cons]
    split <;> simp

theorem mem_escapeSlashes {c : Char} {l : List Char} (h : c ∈ escapeSlashes l) :
    c ∈ l ∨ c = '\\' := by
  unfold escapeSlashes at h
  obtain ⟨a, ha, hc⟩ := List.mem_flatMap.mp h
  by_cases hs : a = '/'
  · rw [if_pos hs] at hc
    rcases List.mem_cons.mp hc with rfl | hc2
    · exact Or.inr rfl
    · rw [List.mem_singleton] at hc2
      subst hc2
      exact Or.inl (hs ▸ ha)
  · rw [if_neg hs] at hc
    rw [List.mem_singleton] at hc
    subst hc
    exact Or.inl ha

theorem replEscSlash_escapeSlashes {u : List Char} (h : '\\' ∉ u) :
    replEscSlash (escapeSlashes u) = u := by
  induction u with
  | nil => rfl
  | cons c t ih =>
    have ht : '\\' ∉ t := fun hm => h (by simp [hm])
    by_cases hc : c = '/'
    · subst hc
      rw [escapeSlashes_cons, if_pos rfl]
      calc replEscSlash ('\\' :: '/' :: escapeSlashes t)
          = '/' :: replEscSlash (escapeSlashes t) := rfl
        _ = '/' :: t := by rw [ih ht]
    · have hcb : c ≠ '\\' := fun hh => h (by simp [hh])
      rw [escapeSlashes_cons, if_neg hc, List.singleton_append,
        replEscSlash_cons_ne hcb, ih ht]

/-! ## Character facts about extensions -/

theorem extLower_mem {e : List Char} (hmem : e.map Char.toLower ∈ imageExts) {c : Char}
    (hc : c ∈ e) :
    c.toLower ∈ ['j', 'p', 'g', 'e', 'n', 'i', 'f', 'b', 'm', 'w', 's', 'v', 't', 'c', 'o', 'a', 'h'] := by
  have h1 : c.toLower ∈ e.map Char.toLower := List.mem_map_of_mem _ hc
  have hall : ∀ x ∈ imageExts, ∀ y ∈ x,
      y ∈ ['j', 'p', 'g', 'e', 'n', 'i', 'f', 'b', 'm', 'w', 's', 'v', 't', 'c', 'o', 'a', 'h'] := by
    decide
  exact hall _ hmem _ h1

theorem extChar_ne {c : Char}
    (h : c.toLower ∈ ['j', 'p', 'g', 'e', 'n', 'i', 'f', 'b', 'm', 'w', 's', 'v', 't', 'c', 'o', 'a', 'h']) :
    c ≠ '\\' ∧ c ≠ '/' ∧ c ≠ '.' ∧ c ≠ '\n' ∧ c ≠ '"' ∧ c ≠ '\'' ∧ c ≠ '<' ∧ c ≠ '>' := by
  refine ⟨?_, ?_, ?_, ?_, ?_, ?_, ?_, ?_⟩ <;> rintro rfl <;> exact absurd h (by decide)

/-! ## Substring containment and candidate shape -/

theorem containsSub_eq_true_iff {p l : List Char} : containsSub p l = true ↔ p <:+: l := by
  induction l with
  | nil =>
    simp only [containsSub, List.isEmpty_iff]
    constructor
    · rintro rfl
      exact List.infix_rfl
    · intro h
      have := h.sublist.length_le
      cases p with
      | nil => rfl
      | cons a t => simp at this
  | cons c cs ih =>
    simp only [containsSub, Bool.or_eq_true, List.isPrefixOf_iff_prefix, ih]
    rw [List.infix_cons_iff]

/-- Every candidate produced by the two scanning passes ends in a letter
of an extension, so the trailing-punctuation cleanup leaves it
unchanged. -/
theorem strip_id_of_candidate {t v : List Char}
    (hv : v ∈ (escFindall t).map replEscSlash ++ directFindall t) :
    stripTrailingPunc v = v := by
  rcases List.mem_append.mp hv with h1 | h2
  · obtain ⟨w, hw, rfl⟩ := List.mem_map.mp h1
    obtain ⟨s, n, hs, hf⟩ := reScanAux_sound t 0 w hw
    obtain ⟨_, _, w1, e, hwe, hmem, hne⟩ := escMatchF_spec hf
    subst hwe
    have htail : replEscSlash (w1 ++ '.' :: e) = replEscSlash w1 ++ '.' :: e := by
      apply replEscSlash_append_tail
      · intro hbs
        rcases List.mem_cons.mp hbs with hdot | hbe
        · exact absurd hdot.symm (by decide)
        · exact (extChar_ne (extLower_mem hmem hbe)).1 rfl
      · simp
    obtain ⟨c, hc_last, hc_low⟩ := lastChar_of_ext hmem
    have hlast : (replEscSlash (w1 ++ '.' :: e)).getLast? = some c := by
      cases e with
      | nil => exact absurd rfl hne
      | cons e0 e2 =>
        rw [htail, List.getLast?_append, List.getLast?_cons_cons, hc_last]
        rfl
    obtain ⟨hp, hn⟩ := extLast_not_punc hc_low
    exact stripTrailingPunc_id hlast hp hn
  · obtain ⟨s, n, hs, hf⟩ := reScanAux_sound t 0 v h2
    obtain ⟨hmem, hne, _, _⟩ := dirMatchF_spec hf
    obtain ⟨c, hc_last, hc_low⟩ := lastChar_of_ext hmem
    obtain ⟨hp, hn⟩ := extLast_not_punc hc_low
    exact stripTrailingPunc_id hc_last hp hn

theorem foldl_cleanStep_eq_nostrip :
    ∀ (l : List (List Char)) (acc : List (List Char)),
      (∀ v ∈ l, stripTrailingPunc v = v) →
        l.foldl cleanStep acc = l.foldl cleanStepNoStrip acc := by
  intro l
  induction l with
  | nil => intro acc _; rfl
  | cons c t ih =>
    intro acc h
    rw [List.foldl_cons, List.foldl_cons]
    have hc := h c (by simp)
    have hstep : cleanStep acc c = cleanStepNoStrip acc c := by
      unfold cleanStep cleanStepNoStrip
      rw [hc]
    rw [hstep]
    exact ih _ (fun v hv => h v (by simp [hv]))

/-! ## C10: the trailing-punctuation cleanup never changes a candidate -/

/-- C10: the variant of `extract_image_urls` with the
trailing-punctuation cleanup removed computes exactly the same set on
every input, because every candidate of both scanning passes already
ends in an extension letter. -/
theorem extract_strip_step_is_identity (t : List Char) :
    extract_image_urls t = extract_image_urls_nostrip t := by
  exact foldl_cleanStep_eq_nostrip _ [] (fun v hv => strip_id_of_candidate hv)

/-! ## C8: no extension substring means an empty result -/

/-- C8: when no recognized extension occurs (case-insensitively) anywhere
in the text, both scanning passes fail everywhere, and the function
returns the empty set; the embedding is a total function, so no
exception is possible. -/
theorem extract_empty_of_no_extension_substring {t : List Char}
    (h : ∀ e ∈ imageExts, containsSub e (t.map Char.toLower) = false) :
    extract_image_urls t = [] := by
  have hnoinfix : ∀ e, e.map Char.toLower ∈ imageExts → ¬(e <:+: t) := by
    intro e hmem hinf
    have h2 : e.map Char.toLower <:+: t.map Char.toLower := hinf.map Char.toLower
    have h3 := containsSub_eq_true_iff.mpr h2
    rw [h _ hmem] at h3
    exact absurd h3 (by simp)
  have hesc : escFindall t = [] := by
    apply reScanAux_empty
    intro s hsuf
    cases hf : escMatchF s with
    | none => rfl
    | some nv =>
      exfalso
      obtain ⟨n, v⟩ := nv
      obtain ⟨hvtake, _, w1, e, hwe, hmem, _⟩ := escMatchF_spec hf
      apply hnoinfix e hmem
      have h1 : e <:+ v := by
        rw [hwe]
        exact ⟨w1 ++ ['.'], by simp⟩
      have h2 : v <+: s := by
        rw [hvtake]
        exact List.take_prefix _ _
      exact (h1.isInfix.trans h2.isInfix).trans hsuf.isInfix
  have hdir : directFindall t = [] := by
    apply reScanAux_empty
    intro s hsuf
    cases hf : dirMatchF s with
    | none => rfl
    | some nv =>
      exfalso
      obtain ⟨n, v⟩ := nv
      obtain ⟨hmem, _, hinf, _⟩ := dirMatchF_spec hf
      exact hnoinfix v hmem (hinf.trans hsuf.isInfix)
  show ((escFindall t).map replEscSlash ++ directFindall t).foldl cleanStep [] = []
  rw [hesc, hdir]
  rfl

/-- Witness for C8 at a concrete extension-free text. -/
theorem extract_empty_of_no_extension_substring_witness :
    extract_image_urls "hello world, no images here".data = [] :=
  extract_empty_of_no_extension_substring (by decide)

/-! ## C9: shape of every extracted element -/

/-- C9: every element of the result starts with `http://` or `https://`,
after that prefix contains a dot with nonempty text on both sides, and
ends case-insensitively in a dot followed by one of the recognized
extensions (the claim's enumerated list jpg, jpeg, png, gif, bmp, webp,
svg, tiff, tif, ico, avif, heic, heif). -/
theorem extract_elements_shape {t x : List Char} (hx : x ∈ extract_image_urls t) :
    (∃ r, (x = "http://".data ++ r ∨ x = "https://".data ++ r) ∧
      ∃ a b, r = a ++ '.' :: b ∧ a ≠ [] ∧ b ≠ []) ∧
    ∃ w e, x = w ++ '.' :: e ∧ e.map Char.toLower ∈ imageExts ∧ e ≠ [] := by
  have hx2 : x ∈ ((escFindall t).map replEscSlash ++ directFindall t).foldl cleanStep [] := hx
  rcases foldl_cleanStep_sound _ x hx2 with h0 | ⟨v, hv, hxv, hval⟩
  · simp at h0
  · have hstrip : stripTrailingPunc v = v := strip_id_of_candidate hv
    rw [hstrip] at hxv
    subst hxv
    obtain ⟨r, hr, hdot⟩ := validUrl_spec hval
    refine ⟨⟨r, by tauto, hdot⟩, ?_⟩
    rcases List.mem_append.mp hv with h1 | h2
    · obtain ⟨w0, hw, hrepl⟩ := List.mem_map.mp h1
      obtain ⟨s, n, hs, hf⟩ := reScanAux_sound t 0 w0 hw
      obtain ⟨_, _, w1, e, hwe, hmem, hne⟩ := escMatchF_spec hf
      subst hwe
      have htail : replEscSlash (w1 ++ '.' :: e) = replEscSlash w1 ++ '.' :: e := by
        apply replEscSlash_append_tail
        · intro hbs
          rcases List.mem_cons.mp hbs with hdot2 | hbe
          · exact absurd hdot2.symm (by decide)
          · exact (extChar_ne (extLower_mem hmem hbe)).1 rfl
        · simp
      exact ⟨replEscSlash w1, e, by rw [← hrepl, htail], hmem, hne⟩
    · exfalso
      obtain ⟨s, n, hs, hf⟩ := reScanAux_sound t 0 x h2
      obtain ⟨hmem, hne, _, hlen⟩ := dirMatchF_spec hf
      rcases hr with h | h
      · have h7 : x.length = "https://".data.length + r.length := by
          rw [h, List.length_append]
        simp at h7
        omega
      · have h8 : x.length = "http://".data.length + r.length := by
          rw [h, List.length_append]
        simp at h8
        omega

/-- Witness for C9 at a concrete input with one escaped URL. -/
theorem extract_elements_shape_witness :
    (∃ r, ("https://x.com/a.png".data = "http://".data ++ r ∨
           "https://x.com/a.png".data = "https://".data ++ r) ∧
      ∃ a b, r = a ++ '.' :: b ∧ a ≠ [] ∧ b ≠ []) ∧
    ∃ w e, "https://x.com/a.png".data = w ++ '.' :: e ∧
      e.map Char.toLower ∈ imageExts ∧ e ≠ [] :=
  @extract_elements_shape "https:\\/\\/x.com\\/a.png".data "https://x.com/a.png".data (by decide)

/-! ## C6: the filename deriver -/

theorem filter3_of_ne {c : Char} (h1 : c ≠ '\t') (h2 : c ≠ '\x0d') (h3 : c ≠ '\n') :
    (!(c = '\t' || c = '\x0d' || c = '\n')) = true := by
  simp [h1, h2, h3]

/-- For a URL of the standard shape `https://host/path` with an optional
`?query`, the embedded `urlparse` path computation returns `/path`. -/
theorem schemeSplit_https (Y : List Char) :
    schemeSplit ('h' :: 't' :: 't' :: 'p' :: 's' :: ':' :: Y) = Y := by
  unfold schemeSplit
  have htw : (('h' :: 't' :: 't' :: 'p' :: 's' :: ':' :: Y).takeWhile (· ≠ ':')) =
      ['h', 't', 't', 'p', 's'] := by
    simp [List.takeWhile_cons]
  have hdw : (('h' :: 't' :: 't' :: 'p' :: 's' :: ':' :: Y).dropWhile (· ≠ ':')) =
      ':' :: Y := by
    simp [List.dropWhile_cons]
  rw [htw, hdw, if_pos ⟨by simp, by decide⟩]
  rfl

theorem netlocSplit_std (host rest2 : List Char)
    (hhost : ∀ c ∈ host, netlocChar c = true) :
    netlocSplit ('/' :: '/' :: (host ++ '/' :: rest2)) = (host, '/' :: rest2) := by
  unfold netlocSplit
  rw [if_pos (by rfl)]
  simp only [List.drop_succ_cons, List.drop_zero]
  rw [takeWhile_append_cons hhost (by decide), dropWhile_append_cons hhost (by decide)]

theorem urlparse_path_standard (host path qext : List Char)
    (hhost : ∀ c ∈ host, c ∉ ['\t', '\x0d', '\n', '/', '?', '#', '[', ']'])
    (hpath : ∀ c ∈ path, c ∉ ['\t', '\x0d', '\n', '?', '#', ';'])
    (hqext : ∀ c ∈ qext, c ∉ ['\t', '\x0d', '\n', '#'])
    (hq_shape : qext = [] ∨ ∃ q, qext = '?' :: q) :
    urlparse_path ("https://".data ++ host ++ '/' :: (path ++ qext)) =
      Except.ok ('/' :: path) := by
  have hshape : ("https://".data : List Char) ++ host ++ '/' :: (path ++ qext) =
      'h' :: 't' :: 't' :: 'p' :: 's' :: ':' ::
        ('/' :: '/' :: (host ++ '/' :: (path ++ qext))) := by
    rfl
  rw [hshape]
  have hstrip : stripUnsafe ('h' :: 't' :: 't' :: 'p' :: 's' :: ':' ::
      ('/' :: '/' :: (host ++ '/' :: (path ++ qext)))) =
      'h' :: 't' :: 't' :: 'p' :: 's' :: ':' ::
        ('/' :: '/' :: (host ++ '/' :: (path ++ qext))) := by
    unfold stripUnsafe
    rw [List.dropWhile_cons_of_neg (by decide)]
    apply List.filter_eq_self.mpr
    intro c hc
    simp only [List.mem_cons, List.mem_append] at hc
    rcases hc with rfl | rfl | rfl | rfl | rfl | rfl | rfl | rfl | hH | rfl | hP | hQ
    · decide
    · decide
    · decide
    · decide
    · decide
    · decide
    · decide
    · decide
    · have := hhost c hH
      simp only [List.mem_cons, List.not_mem_nil, not_or] at this
      exact filter3_of_ne this.1 this.2.1 this.2.2.1
    · decide
    · have := hpath c hP
      simp only [List.mem_cons, List.not_mem_nil, not_or] at this
      exact filter3_of_ne this.1 this.2.1 this.2.2.1
    · have := hqext c hQ
      simp only [List.mem_cons, List.not_mem_nil, not_or] at this
      exact filter3_of_ne this.1 this.2.1 this.2.2.1
  have hnet : netlocSplit ('/' :: '/' :: (host ++ '/' :: (path ++ qext))) =
      (host, '/' :: (path ++ qext)) := by
    apply netlocSplit_std
    intro c hcm
    have := hhost c hcm
    simp only [List.mem_cons, List.not_mem_nil, not_or] at this
    simp [netlocChar, this.2.2.2.1, this.2.2.2.2.1, this.2.2.2.2.2.1]
  have hnobr1 : ('[' : Char) ∉ host := by
    intro hm
    have := hhost '[' hm
    simp at this
  have hnobr2 : (']' : Char) ∉ host := by
    intro hm
    have := hhost ']' hm
    simp at this
  have hfrag : (('/' :: (path ++ qext)).takeWhile (· ≠ '#')) = '/' :: (path ++ qext) := by
    apply List.takeWhile_eq_self_iff.mpr
    intro c hcm
    rcases List.mem_cons.mp hcm with rfl | hcm2
    · decide
    · rcases List.mem_append.mp hcm2 with hP | hQ
      · have := hpath c hP
        simp only [List.mem_cons, List.not_mem_nil, not_or] at this
        simp [this.2.2.2.2.1]
      · have := hqext c hQ
        simp only [List.mem_cons, List.not_mem_nil, not_or] at this
        simp [this.2.2.2.1]
  have hquery : (('/' :: (path ++ qext)).takeWhile (· ≠ '?')) = '/' :: path := by
    rcases hq_shape with rfl | ⟨q, rfl⟩
    · rw [List.append_nil]
      apply List.takeWhile_eq_self_iff.mpr
      intro c hcm
      rcases List.mem_cons.mp hcm with rfl | hcm2
      · decide
      · have := hpath c hcm2
        simp only [List.mem_cons, List.not_mem_nil, not_or] at this
        simp [this.2.2.2.1]
    · rw [List.takeWhile_cons_of_pos (by decide)]
      congr 1
      apply takeWhile_append_cons
      · intro c hcm
        have := hpath c hcm
        simp only [List.mem_cons, List.not_mem_nil, not_or] at this
        simp [this.2.2.2.1]
      · decide
  have hsemi : (';' : Char) ∉ ('/' :: path) := by
    intro hm
    rcases List.mem_cons.mp hm with hc | hm2
    · exact absurd hc.symm (by decide)
    · have := hpath ';' hm2
      simp at this
  simp only [urlparse_path]
  rw [hstrip, schemeSplit_https, hnet]
  rw [if_neg (by simp [hnobr1, hnobr2])]
  rw [hfrag, hquery, if_neg hsemi]


theorem lastSegment_slash_cons (path : List Char) :
    lastSegment ('/' :: path) = lastSegment path := by
  unfold lastSegment
  rw [List.reverse_cons, takeWhile_append_stop (by decide)]

/-- C6: for a URL of the standard shape `https://host/path` with an
optional query string, `get_filename_from_url` returns the final
slash-separated segment of the path (the query string is excluded) when
that segment is nonempty and contains a dot, and otherwise the fallback
`image_N.jpg` with `N = hash(url) mod 10000`. The embedding is a pure
total function of the process hash function `h` and the URL, so repeated
calls within one run return the same value and nothing is raised. -/
theorem filename_from_url_spec (h : List Char → Int) (host path qext url : List Char)
    (hhost : ∀ c ∈ host, c ∉ ['\t', '\x0d', '\n', '/', '?', '#', '[', ']'])
    (hpath : ∀ c ∈ path, c ∉ ['\t', '\x0d', '\n', '?', '#', ';'])
    (hqext : ∀ c ∈ qext, c ∉ ['\t', '\x0d', '\n', '#'])
    (hq_shape : qext = [] ∨ ∃ q, qext = '?' :: q)
    (hurl : url = "https://".data ++ host ++ '/' :: (path ++ qext)) :
    get_filename_from_url h url =
      if lastSegment path = [] ∨ '.' ∉ lastSegment path then fallbackName h url
      else lastSegment path := by
  subst hurl
  have hparse := urlparse_path_standard host path qext hhost hpath hqext hq_shape
  unfold get_filename_from_url
  rw [hparse]
  simp only [lastSegment_slash_cons]

/-- Witness for C6 at the spec's example URL. -/
theorem filename_from_url_spec_witness :
    get_filename_from_url (fun _ => 1234) "https://x.com/a/b.png?x=1".data =
      "b.png".data := by
  have hspec := filename_from_url_spec (fun _ => 1234) "x.com".data "a/b.png".data
    "?x=1".data "https://x.com/a/b.png?x=1".data (by decide) (by decide) (by decide)
    (Or.inr ⟨"x=1".data, rfl⟩) (by decide)
  rw [hspec]
  decide

/-! ## C2: extraction of escaped URLs inside string values -/

/-- C2 counterexample: the escaped form of `https://x.com/a.png` occurs
in the text, but the greedy class backtracks to the rightmost extension,
so only the longer `https://x.com/a.png.gif` is extracted. -/
theorem extract_escaped_substring_counterexample :
    "https://x.com/a.png".data ∉
        extract_image_urls "https:\\/\\/x.com\\/a.png.gif".data ∧
      "https://x.com/a.png.gif".data ∈
        extract_image_urls "https:\\/\\/x.com\\/a.png.gif".data := by
  exact ⟨by decide, by decide⟩

theorem e_not_special {e : List Char} (hext : e.map Char.toLower ∈ imageExts) :
    (∀ c ∈ e, c ≠ '\\' ∧ c ≠ '/' ∧ c ≠ '.' ∧ c ≠ '\n' ∧
      c ≠ '"' ∧ c ≠ '\'' ∧ c ≠ '<' ∧ c ≠ '>') ∧ e ≠ [] := by
  constructor
  · intro c hc
    exact extChar_ne (extLower_mem hext hc)
  · intro h0
    rw [h0, List.map_nil] at hext
    exact absurd hext (by decide)

theorem escapeSlashes_https_data :
    escapeSlashes "https://".data = "https:\\/\\/".data := by decide

theorem escapeSlashes_http_data :
    escapeSlashes "http://".data = "http:\\/\\/".data := by decide

theorem matchSchemeLen_esc_https (X : List Char) :
    matchSchemeLen escSchemePats ("https:\\/\\/".data ++ X) =
      some ("https:\\/\\/".data.length) := rfl

theorem matchSchemeLen_esc_http (X : List Char) :
    matchSchemeLen escSchemePats ("http:\\/\\/".data ++ X) =
      some ("http:\\/\\/".data.length) := rfl

theorem reScanAux_head {f : List Char → Option (Nat × List Char)} {c : Char}
    {cs : List Char} {n : Nat} {v : List Char} (hf : f (c :: cs) = some (n, v)) :
    v ∈ reScanAux f (c :: cs) 0 := by
  simp only [reScanAux]
  rw [hf]
  exact List.mem_cons_self _ _

theorem escMatchF_no_quote {cs : List Char} {n : Nat} {v : List Char}
    (h : escMatchF cs = some (n, v)) : '"' ∉ cs.take (n + 1) := by
  obtain ⟨hv, hq, _⟩ := escMatchF_spec h
  rw [← hv]
  exact hq

/-- The escaped matcher applied right at an escaped URL followed by a
closing double quote matches exactly the escaped URL. -/
theorem escMatchF_quoted {schEsc B e post : List Char}
    (hS : matchSchemeLen escSchemePats (schEsc ++ (B ++ '.' :: e) ++ '"' :: post) =
      some schEsc.length)
    (hdrop : (schEsc ++ (B ++ '.' :: e) ++ '"' :: post).drop schEsc.length =
      (B ++ '.' :: e) ++ '"' :: post)
    (hclass : ∀ c ∈ B ++ '.' :: e, classE c = true)
    (hB : 1 ≤ B.length) (hdot : '.' ∉ e) (hextE : extAtCI e = some e) :
    escMatchF (schEsc ++ (B ++ '.' :: e) ++ '"' :: post) =
      some (schEsc.length + B.length + e.length, schEsc ++ (B ++ '.' :: e)) := by
  have hlen : (schEsc ++ (B ++ '.' :: e)).length =
      schEsc.length + B.length + 1 + e.length := by
    simp only [List.length_append, List.length_cons]
    omega
  have htake : (schEsc ++ (B ++ '.' :: e) ++ '"' :: post).take
      (schEsc.length + B.length + 1 + e.length) = schEsc ++ (B ++ '.' :: e) := by
    rw [← hlen, List.take_append_of_le_length (le_refl _), List.take_length]
  unfold escMatchF
  rw [hS]
  simp only
  rw [hdrop, takeWhile_append_cons hclass (by decide),
    findDotExt_ext_end hB hdot hextE]
  simp only
  rw [htake]

/-- C2 amended: a URL with lowercase scheme `http://` or `https://`,
whose remainder is nonempty, free of quotes, angle brackets, backslashes
and newlines, and ends in a dot followed by a case-variant of a
recognized extension, is extracted (with its original case) whenever it
appears as a complete double-quoted string value with every slash
escaped as backslash-slash. -/
theorem extract_contains_quoted_escaped_url (pre post m e sch : List Char)
    (hsch : sch = "https://".data ∨ sch = "http://".data)
    (hm : m ≠ [])
    (hmchars : ∀ c ∈ m, c ∉ ['"', '\'', '<', '>', '\\', '\n'])
    (hext : e.map Char.toLower ∈ imageExts) :
    sch ++ m ++ '.' :: e ∈
      extract_image_urls
        (pre ++ '"' :: escapeSlashes (sch ++ m ++ '.' :: e) ++ '"' :: post) := by
  rw [List.append_assoc, List.cons_append]
  obtain ⟨hech, hene⟩ := e_not_special hext
  have hdot_e : '.' ∉ e := fun hc => (hech _ hc).2.2.1 rfl
  have hsl_e : '/' ∉ ('.' :: e) := by
    intro hc
    rcases List.mem_cons.mp hc with hc1 | hc2
    · exact absurd hc1.symm (by decide)
    · exact (hech _ hc2).2.1 rfl
  have hesc_tail : escapeSlashes ('.' :: e) = '.' :: e := escapeSlashes_no_slash hsl_e
  have hB1 : 1 ≤ (escapeSlashes m).length :=
    List.length_pos.mpr (escapeSlashes_ne_nil hm)
  have hextE : extAtCI e = some e := extAtCI_of_lower hext rfl
  have hclassBE : ∀ c ∈ escapeSlashes m ++ '.' :: e, classE c = true := by
    intro c hc
    rcases List.mem_append.mp hc with hc1 | hc2
    · rcases mem_escapeSlashes hc1 with hcm | rfl
      · have := hmchars c hcm
        simp only [List.mem_cons, List.not_mem_nil, not_or] at this
        simp [classE, this.1, this.2.1, this.2.2.1, this.2.2.2.1]
      · decide
    · rcases List.mem_cons.mp hc2 with rfl | hc3
      · decide
      · have h8 := hech c hc3
        simp [classE, h8.2.2.2.2.1, h8.2.2.2.2.2.1, h8.2.2.2.2.2.2.1, h8.2.2.2.2.2.2.2]
  have hescu : escapeSlashes (sch ++ m ++ '.' :: e) =
      escapeSlashes sch ++ (escapeSlashes m ++ '.' :: e) := by
    rw [List.append_assoc, escapeSlashes_append, escapeSlashes_append, hesc_tail]
  rw [hescu]
  have hmatch : escMatchF (escapeSlashes sch ++ (escapeSlashes m ++ '.' :: e) ++ '"' :: post) =
      some ((escapeSlashes sch).length + (escapeSlashes m).length + e.length,
        escapeSlashes sch ++ (escapeSlashes m ++ '.' :: e)) := by
    rcases hsch with rfl | rfl
    · rw [escapeSlashes_https_data]
      exact escMatchF_quoted (matchSchemeLen_esc_https _) rfl hclassBE hB1 hdot_e hextE
    · rw [escapeSlashes_http_data]
      exact escMatchF_quoted (matchSchemeLen_esc_http _) rfl hclassBE hB1 hdot_e hextE
  have hmem_scan : escapeSlashes sch ++ (escapeSlashes m ++ '.' :: e) ∈
      reScanAux escMatchF
        (escapeSlashes sch ++ (escapeSlashes m ++ '.' :: e) ++ '"' :: post) 0 := by
    cases hcase : escapeSlashes sch ++ (escapeSlashes m ++ '.' :: e) ++ '"' :: post with
    | nil => simp at hcase
    | cons c0 cs0 =>
      rw [hcase] at hmatch
      exact reScanAux_head hmatch
  have hmem_esc : escapeSlashes sch ++ (escapeSlashes m ++ '.' :: e) ∈
      escFindall (pre ++ '"' ::
        (escapeSlashes sch ++ (escapeSlashes m ++ '.' :: e) ++ '"' :: post)) :=
    reScanAux_boundary (fun _ _ _ hf => escMatchF_no_quote hf) pre 0 (by omega) _ hmem_scan
  have hnb_u : '\\' ∉ sch ++ m ++ '.' :: e := by
    intro hc
    simp only [List.append_assoc, List.mem_append, List.mem_cons] at hc
    rcases hc with hc1 | hc2 | hc3 | hc4
    · rcases hsch with rfl | rfl <;> revert hc1 <;> decide
    · have := hmchars _ hc2
      exact this (by decide)
    · exact absurd hc3.symm (by decide)
    · exact (hech _ hc4).1 rfl
  have hrt : replEscSlash (escapeSlashes (sch ++ m ++ '.' :: e)) = sch ++ m ++ '.' :: e :=
    replEscSlash_escapeSlashes hnb_u
  have hcand : sch ++ m ++ '.' :: e ∈
      (escFindall (pre ++ '"' ::
          (escapeSlashes sch ++ (escapeSlashes m ++ '.' :: e) ++ '"' :: post))).map replEscSlash ++
        directFindall (pre ++ '"' ::
          (escapeSlashes sch ++ (escapeSlashes m ++ '.' :: e) ++ '"' :: post)) := by
    apply List.mem_append_left
    have h3 : replEscSlash (escapeSlashes sch ++ (escapeSlashes m ++ '.' :: e)) =
        sch ++ m ++ '.' :: e := by
      rw [← hescu]
      exact hrt
    have h2 := List.mem_map_of_mem replEscSlash hmem_esc
    rw [h3] at h2
    exact h2
  obtain ⟨e0, e2, rfl⟩ : ∃ e0 e2, e = e0 :: e2 := by
    cases e with
    | nil => exact absurd rfl hene
    | cons a b => exact ⟨a, b, rfl⟩
  obtain ⟨cl, hcl, hclow⟩ := lastChar_of_ext hext
  have hstrip : stripTrailingPunc (sch ++ m ++ '.' :: e0 :: e2) =
      sch ++ m ++ '.' :: e0 :: e2 := by
    obtain ⟨hp, hn⟩ := extLast_not_punc hclow
    apply stripTrailingPunc_id _ hp hn
    rw [List.append_assoc, List.getLast?_append, List.getLast?_append,
      List.getLast?_cons_cons, hcl]
    rfl
  have hvalid : validUrl (sch ++ m ++ '.' :: e0 :: e2) = true := by
    have hds : dotSearch false (m ++ '.' :: e0 :: e2) = true := by
      apply dotSearch_append m false e0 e2 _ (Or.inr hm)
      · exact (hech e0 (by simp)).2.2.2.1
      · intro c hcm
        have := hmchars c hcm
        simp only [List.mem_cons, List.not_mem_nil, not_or] at this
        exact this.2.2.2.2.2.1
    rcases hsch with rfl | rfl
    · unfold validUrl
      rw [if_pos]
      · have hd : ("https://".data ++ m ++ '.' :: e0 :: e2).drop 8 = m ++ '.' :: e0 :: e2 := by
          rw [List.append_assoc]
          rfl
        rw [hd]
        exact hds
      · apply List.isPrefixOf_iff_prefix.mpr
        rw [List.append_assoc]
        exact ⟨m ++ '.' :: e0 :: e2, rfl⟩
    · unfold validUrl
      rw [if_neg, if_pos]
      · have hd : ("http://".data ++ m ++ '.' :: e0 :: e2).drop 7 = m ++ '.' :: e0 :: e2 := by
          rw [List.append_assoc]
          rfl
        rw [hd]
        exact hds
      · apply List.isPrefixOf_iff_prefix.mpr
        rw [List.append_assoc]
        exact ⟨m ++ '.' :: e0 :: e2, rfl⟩
      · rw [List.append_assoc]
        intro hpre
        obtain ⟨t, ht⟩ := List.isPrefixOf_iff_prefix.mp hpre
        have h5 : ("https://".data ++ t).get? 4 = some 's' := rfl
        rw [ht] at h5
        have h6 : ("http://".data ++ (m ++ '.' :: e0 :: e2)).get? 4 = some ':' := rfl
        rw [h6] at h5
        exact absurd h5 (by decide)
  have hfold := mem_foldl_cleanStep_of_valid [] _ hcand (by rw [hstrip]; exact hvalid)
  rw [hstrip] at hfold
  exact hfold

/-- Witness for C2's amended claim at the spec's scenario input. -/
theorem extract_contains_quoted_escaped_url_witness :
    "https://cdn.test/img/a.JPG".data ∈
      extract_image_urls
        "\x7b\"bg\":\"https:\\/\\/cdn.test\\/img\\/a.JPG\",\"other\":\"no url here\"\x7d".data := by
  have h := extract_contains_quoted_escaped_url "\x7b\"bg\":".data
    ",\"other\":\"no url here\"\x7d".data "cdn.test/img/a".data "JPG".data
    "https://".data (Or.inl rfl) (by decide) (by decide) (by decide)
  have e2 : ("\x7b\"bg\":".data : List Char) ++ '"' ::
      escapeSlashes ("https://".data ++ "cdn.test/img/a".data ++ '.' :: "JPG".data) ++
      '"' :: ",\"other\":\"no url here\"\x7d".data =
      "\x7b\"bg\":\"https:\\/\\/cdn.test\\/img\\/a.JPG\",\"other\":\"no url here\"\x7d".data := by
    decide
  rw [e2] at h
  have e1 : ("https://".data : List Char) ++ "cdn.test/img/a".data ++ '.' :: "JPG".data =
      "https://cdn.test/img/a.JPG".data := by decide
  rw [e1] at h
  exact h

end PlaceholderGen
